import Mathlib

/-!
Verification of the CNPJ generator (`gerador_cnpj.py`): the mod-11 checksum
engine, the identifier formatter/parser, the three sampling strategies and the
chunked file writer, shallowly embedded in Lean.

Modelling conventions:
* Python strings are modelled as `List Char`; Python ints as `Nat` (or `Int`
  where a value can be negative, e.g. CLI shard parameters).
* `f"{n:0kd}"` zero-padded formatting is modelled by `padDigits k n`, the
  fixed-width base-10 digit expansion; this coincides with Python for
  `n < 10 ^ k`, which holds at every call site that the claims quantify over.
* Randomness (`random.randint`, `random.randrange`) is modelled by passing the
  drawn values explicitly (a draw or a list of draws); a seeded PRNG run
  corresponds to one concrete draw stream.
* File output is modelled as a list of `(fileName, written lines)` pairs, and
  `SystemExit` / raised exceptions as the `Except.error` branch.
-/

namespace Gerador

/-- Official CNPJ check-digit weights for the first digit (`PESOS_DV1`). -/
def PESOS_DV1 : List Nat := [5, 4, 3, 2, 9, 8, 7, 6, 5, 4, 3, 2]

/-- Official CNPJ check-digit weights for the second digit (`PESOS_DV2`). -/
def PESOS_DV2 : List Nat := [6, 5, 4, 3, 2, 9, 8, 7, 6, 5, 4, 3, 2]

/-- `dv_mod11(numeros, pesos)`: weighted sum, remainder mod 11, and the
`0 if r < 2 else 11 - r` rule.  `zipWith` truncates to the shorter list
exactly like Python's `zip`. -/
def dv_mod11 (numeros pesos : List Nat) : Nat :=
  let s := (List.zipWith (· * ·) numeros pesos).sum
  let r := s % 11
  if r < 2 then 0 else 11 - r

/-- `calc_dvs(base12_digits)`: the two check digits. -/
def calc_dvs (base12_digits : List Nat) : Nat × Nat :=
  let d1 := dv_mod11 base12_digits PESOS_DV1
  let d2 := dv_mod11 (base12_digits ++ [d1]) PESOS_DV2
  (d1, d2)

/-- Fixed-width base-10 digit expansion, most significant digit first; models
Python's `f"{n:0kd}"` for `n < 10 ^ k`. -/
def padDigits (k n : Nat) : List Nat :=
  (List.range k).map (fun i => n / 10 ^ (k - 1 - i) % 10)

/-- Digits rendered as characters (Python's string of decimal digits). -/
def digitsToChars (l : List Nat) : List Char :=
  l.map Nat.digitChar

/-- `mascarar(cnpj)`: the Python slicing
`cnpj[0:2] + "." + cnpj[2:5] + "." + cnpj[5:8] + "/" + cnpj[8:12] + "-" + cnpj[12:14]`. -/
def mascarar (cnpj : List Char) : List Char :=
  cnpj.take 2 ++ ['.'] ++ ((cnpj.drop 2).take 3) ++ ['.'] ++ ((cnpj.drop 5).take 3)
    ++ ['/'] ++ ((cnpj.drop 8).take 4) ++ ['-'] ++ ((cnpj.drop 12).take 2)

/-- `is_sequencia_invalida(cnpj14str)`: `len(set(s)) == 1`. -/
def is_sequencia_invalida (cnpj14str : List Char) : Bool :=
  cnpj14str.toFinset.card == 1

/-- Positional value of a digit string, as Python's `int(...)` computes it on a
string of decimal digit characters. -/
def charsVal (l : List Char) : Nat :=
  l.foldl (fun a c => a * 10 + (c.toNat - 48)) 0

/-- `parse_cnpj_like(s)`: strip the non-digits (`re.sub(r"\D", "", s)`),
require at least 12 digits, take the first 8 as `raiz` and the next 4 as
`filial`. -/
def parse_cnpj_like (s : List Char) : Except (List Char) (Nat × Nat) :=
  let nums := s.filter Char.isDigit
  if nums.length < 12 then
    .error ("Entrada nao tem digitos suficientes para raiz+filial (min. 12).".toList)
  else
    .ok (charsVal (nums.take 8), charsVal ((nums.drop 8).take 4))

/-- The 14-digit sequence assembled by `montar_cnpj` before the degenerate
check: 8-digit root, 4-digit branch, two check digits. -/
def cnpj14_digits (raiz8 filial4 : Nat) : List Nat :=
  let base12 := padDigits 8 raiz8 ++ padDigits 4 filial4
  let p := calc_dvs base12
  base12 ++ [p.1, p.2]

/-- `montar_cnpj(raiz8, filial4, com_mascara)`: returns `None` on a degenerate
all-identical-digit sequence, else the (optionally masked) 14-digit string. -/
def montar_cnpj (raiz8 filial4 : Nat) (com_mascara : Bool) : Option (List Char) :=
  let cnpj14 := digitsToChars (cnpj14_digits raiz8 filial4)
  if is_sequencia_invalida cnpj14 then none
  else some (if com_mascara then mascarar cnpj14 else cnpj14)

/-- `permute_index(i, N, a, b) = (a*i + b) % N`. -/
def permute_index (i N a b : Nat) : Nat :=
  (a * i + b) % N

/-- `coprime_to(N)`: rejection-sample until a draw is coprime to `N`.  The
stream of `random.randrange(2, N-1)` draws is passed explicitly; `none` models
the loop still running after the given draws are exhausted. -/
def coprime_to (N : Nat) : List Nat → Option Nat
  | [] => none
  | a :: rest => if Nat.gcd a N = 1 then some a else coprime_to N rest

/-! ### The chunked writer -/

/-- `ChunkWriter` state.  The filesystem effect is modelled by `files`: the
list of files opened so far, each with the text written to it (one entry per
`write` call pair, i.e. the line together with its terminator).  `fh_open`
models whether `self._fh` is not `None`. -/
structure ChunkWriter where
  base_path : List Char
  chunk_size : Nat
  progress_every : Nat
  count_total : Nat
  count_chunk : Nat
  chunk_idx : Nat
  fh_open : Bool
  files : List (List Char × List (List Char))

/-- `ChunkWriter.__init__`: `chunk_size = max(0, chunk_size)`,
`progress_every = max(0, progress_every)`, counters zeroed, no file open.
(`base_path` models `base_prefix`; the directory creation has no effect on the
modelled file contents.) -/
def ChunkWriter.init (base_path : List Char) (chunk_size progress_every : Int) : ChunkWriter :=
  { base_path := base_path
    chunk_size := (max 0 chunk_size).toNat
    progress_every := (max 0 progress_every).toNat
    count_total := 0
    count_chunk := 0
    chunk_idx := 0
    fh_open := false
    files := [] }

/-- The chunked file name `f"{name}_{idx:05d}.txt"` (for `idx < 10^5`). -/
def chunkName (base_path : List Char) (idx : Nat) : List Char :=
  base_path ++ [ '_' ] ++ digitsToChars (padDigits 5 idx) ++ ".txt".toList

/-- `ChunkWriter._open_next`: bump the chunk index, open the next file
(`<name>_<idx:05d>.txt` when chunking, else `<name>.txt`), reset the per-chunk
counter. -/
def ChunkWriter.open_next (w : ChunkWriter) : ChunkWriter :=
  let idx := w.chunk_idx + 1
  let path := if w.chunk_size > 0 then chunkName w.base_path idx
              else w.base_path ++ ".txt".toList
  { w with chunk_idx := idx, count_chunk := 0, fh_open := true,
           files := w.files ++ [(path, [])] }

/-- Append an entry to the last (currently open) file. -/
def appendLast (files : List (List Char × List (List Char))) (entry : List Char) :
    List (List Char × List (List Char)) :=
  match files with
  | [] => []
  | [f] => [(f.1, f.2 ++ [entry])]
  | f :: rest => f :: appendLast rest entry

/-- `ChunkWriter.write_line`: open the first chunk if no file is open, rotate
when the current chunk already holds `chunk_size` lines, then write the line
followed by one line terminator and bump both counters. -/
def ChunkWriter.write_line (w : ChunkWriter) (line : List Char) : ChunkWriter :=
  let w1 := if w.fh_open then w else w.open_next
  let w2 := if 0 < w1.chunk_size ∧ w1.chunk_size ≤ w1.count_chunk then w1.open_next else w1
  { w2 with files := appendLast w2.files (line ++ [ '\n' ]),
            count_chunk := w2.count_chunk + 1,
            count_total := w2.count_total + 1 }

/-- `ChunkWriter.close`: release the handle if open; idempotent. -/
def ChunkWriter.close (w : ChunkWriter) : ChunkWriter :=
  { w with fh_open := false }

/-- Abbreviation for a mid-run writer state with `chunk_size = 3` and an open
handle (used to trace the seven-write scenario step by step). -/
def chunkState (p : List Char) (ct cc ci : Nat)
    (fs : List (List Char × List (List Char))) : ChunkWriter :=
  { base_path := p, chunk_size := 3, progress_every := 0, count_total := ct,
    count_chunk := cc, chunk_idx := ci, fh_open := true, files := fs }

/-! ### The three generation modes

Randomness is passed explicitly: a seeded PRNG run corresponds to one concrete
stream of draws, so each mode is a pure function of its parameters and its
draw stream. -/

/-- The window `[lo, hi]` of candidate roots around `raiz_base` and its size
`N`, as computed by the `around` mode:
`lo = max(0, raiz_base - spread)`, `hi = min(99_999_999, raiz_base + spread)`,
`N = hi - lo + 1`. -/
def windowOf (raiz_base spread : Nat) : Nat × Nat × Nat :=
  let lo := max 0 (raiz_base - spread)
  let hi := min 99999999 (raiz_base + spread)
  (lo, hi, hi - lo + 1)

/-- The line `montar_cnpj` produces for root `raiz` with the fixed branch 1
(the `around` mode's rendering; total because branch 1 is never degenerate). -/
def aroundLine (raiz : Nat) (com_mascara : Bool) : List Char :=
  if com_mascara then mascarar (digitsToChars (cnpj14_digits raiz 1))
  else digitsToChars (cnpj14_digits raiz 1)

/-- The `around` emission loop: `j = permute_index(i); raiz = lo + j`; a
rejected (degenerate) candidate advances `i` without counting.  `fuel` bounds
the number of iterations (the Python loop is unbounded; every theorem
instantiates `fuel` large enough, which suffices because branch 1 is never
rejected). -/
def aroundGo (a b N lo : Nat) (com_mascara : Bool) : Nat → Nat → Nat → List (List Char)
  | 0, _, _ => []
  | _ + 1, 0, _ => []
  | fuel + 1, need + 1, i =>
    match montar_cnpj (lo + permute_index i N a b) 1 com_mascara with
    | some line => line :: aroundGo a b N lo com_mascara fuel need (i + 1)
    | none => aroundGo a b N lo com_mascara fuel (need + 1) (i + 1)

/-- The `around` mode: parse the base identifier, derive the window, reject a
quantity larger than the window, pick `a` coprime to `N` from the draw stream
(`b` is the other draw), then emit through the affine permutation.  A `none`
from `coprime_to` (exhausted draw stream) is reported as an error; in Python
the sampling loop would still be running. -/
def runAround (base_cnpj : List Char) (spread quantidade : Nat) (com_mascara : Bool)
    (aDraws : List Nat) (b : Nat) (fuel : Nat) : Except (List Char) (List (List Char)) :=
  match parse_cnpj_like base_cnpj with
  | .error e => .error e
  | .ok (raiz_base, _) =>
    let w := windowOf raiz_base spread
    if quantidade > w.2.2 then
      .error "Quantidade maior que o tamanho da faixa.".toList
    else
      match coprime_to w.2.2 aDraws with
      | none => .error "stream de sorteios esgotado".toList
      | some a_coef => .ok (aroundGo a_coef b w.2.2 w.1 com_mascara fuel quantidade 0)

/-- `offset = (shard_index - inicio % shards_total) % shards_total`, with
Python's `%` semantics on possibly-negative operands (`Int.emod` agrees with
Python for a positive modulus). -/
def seqOffset (shard_index inicio shards_total : Int) : Int :=
  (shard_index - inicio % shards_total) % shards_total

/-- The index stream of the sequential loop: `i, i+stride, i+2*stride, …`
while `i ≤ fim`.  (A zero stride cannot terminate; the guard makes the
function total, and every run instantiates `stride > 0`.) -/
def seqLoopIdx (fim stride : Nat) (i : Nat) : List Nat :=
  if h : 0 < stride ∧ i ≤ fim then i :: seqLoopIdx fim stride (i + stride) else []
termination_by fim + 1 - i
decreasing_by omega

/-- The first index shard `s` visits: `inicio + offset`. -/
def seqStart (inicio s total : Nat) : Nat :=
  inicio + (seqOffset (s : Int) (inicio : Int) (total : Int)).toNat

/-- The indices visited by shard `s` of the sequential mode over
`[inicio, fim]` with step `passo` and `total` shards. -/
def seqVisited (inicio fim passo total s : Nat) : List Nat :=
  seqLoopIdx fim (passo * total) (seqStart inicio s total)

/-- The 14-character sequence the sequential mode builds for base12 value `i`
(`f"{i:012d}"`, check digits appended). -/
def seqCnpj14 (i : Nat) : List Char :=
  let base12_digits := padDigits 12 i
  let p := calc_dvs base12_digits
  digitsToChars (base12_digits ++ [p.1, p.2])

/-- The per-index body of the sequential loop over the visited index stream:
stop once `alvo` accepted lines were emitted, skip degenerate sequences unless
`nao_pular` is set.  (The Python `while` interleaves index stepping and
emission; the index stream does not depend on the emission state, so the loop
is split into `seqLoopIdx` and this fold.) -/
def seqEmitGo (com_mascara nao_pular : Bool) (alvo : Option Nat) :
    Nat → List Nat → List (List Char)
  | _, [] => []
  | emitidos, i :: rest =>
    if (match alvo with | none => false | some q => q ≤ emitidos) then []
    else
      let cnpj14 := seqCnpj14 i
      if nao_pular || !(is_sequencia_invalida cnpj14) then
        (if com_mascara then mascarar cnpj14 else cnpj14) ::
          seqEmitGo com_mascara nao_pular alvo (emitidos + 1) rest
      else seqEmitGo com_mascara nao_pular alvo emitidos rest

/-- The sequential mode: shard-bounds check, then the sharded enumeration. -/
def runSeqMode (inicio fim passo : Nat) (shards_total shard_index : Int)
    (alvo : Option Nat) (com_mascara nao_pular : Bool) :
    Except (List Char) (List (List Char)) :=
  if ¬(0 ≤ shard_index ∧ shard_index < shards_total) then
    .error "Shard invalido".toList
  else
    let offset := (seqOffset shard_index (inicio : Int) shards_total).toNat
    .ok (seqEmitGo com_mascara nao_pular alvo 0
      (seqLoopIdx fim (passo * shards_total.toNat) (inicio + offset)))

/-- The rendered line of shard output for base12 value `i`. -/
def seqRender (com_mascara : Bool) (i : Nat) : List Char :=
  if com_mascara then mascarar (seqCnpj14 i) else seqCnpj14 i

/-- The output lines of one shard (what `runSeqMode` emits with no quantity
target): the kept (non-degenerate) visited values, rendered. -/
def seqOutput (lo hi total s : Nat) (com_mascara : Bool) : List (List Char) :=
  ((seqVisited lo hi 1 total s).filter
    (fun i => !is_sequencia_invalida (seqCnpj14 i))).map (seqRender com_mascara)

/-- `gerar_random_uma_linha`, with the two random draws passed explicitly
(`rootDraw` models the `randint`/`triangular` result, `filialDraw` the branch
draw used when `filial_aleatoria`). -/
def gerar_random_uma_linha (filial_aleatoria : Bool) (filial_fixa : Option Int)
    (com_mascara : Bool) (rootDraw filialDraw : Nat) : Option (List Char) :=
  let filial := if filial_aleatoria then filialDraw
                else match filial_fixa with | none => 1 | some v => v.toNat
  montar_cnpj rootDraw filial com_mascara

/-- The random mode's emission loop: resample (consume the next draw) on a
degenerate rejection, stop after `need` accepted lines (or when the modelled
draw stream runs out). -/
def randomGo (filial_aleatoria : Bool) (filial_fixa : Option Int) (com_mascara : Bool) :
    Nat → List (Nat × Nat) → List (List Char)
  | 0, _ => []
  | _ + 1, [] => []
  | need + 1, d :: rest =>
    match gerar_random_uma_linha filial_aleatoria filial_fixa com_mascara d.1 d.2 with
    | some line => line :: randomGo filial_aleatoria filial_fixa com_mascara need rest
    | none => randomGo filial_aleatoria filial_fixa com_mascara (need + 1) rest

/-- The random mode: range validation (`SystemExit` on failure, before any
line is produced), then the sampling loop. -/
def runRandomMode (quantidade : Nat) (raiz_min raiz_max : Int)
    (filial_aleatoria : Bool) (filial_fixa : Option Int) (com_mascara : Bool)
    (draws : List (Nat × Nat)) : Except (List Char) (List (List Char)) :=
  if raiz_min < 0 ∨ raiz_max > 99999999 ∨ raiz_min > raiz_max then
    .error "--raiz-min/--raiz-max invalidos (0..99999999 e min <= max)".toList
  else
    .ok (randomGo filial_aleatoria filial_fixa com_mascara quantidade draws)

/-! ### Digit-list arithmetic lemmas -/

theorem dv_mod11_le_nine (numeros pesos : List Nat) :
    dv_mod11 numeros pesos ≤ 9 := by
  have h : (List.zipWith (· * ·) numeros pesos).sum % 11 < 11 :=
    Nat.mod_lt _ (by omega)
  dsimp only [dv_mod11]
  split <;> omega

theorem calc_dvs_fst (l : List Nat) : (calc_dvs l).1 = dv_mod11 l PESOS_DV1 := rfl

theorem calc_dvs_snd (l : List Nat) :
    (calc_dvs l).2 = dv_mod11 (l ++ [dv_mod11 l PESOS_DV1]) PESOS_DV2 := rfl

theorem calc_dvs_fst_le (l : List Nat) : (calc_dvs l).1 ≤ 9 := by
  rw [calc_dvs_fst]
  exact dv_mod11_le_nine _ _

theorem calc_dvs_snd_le (l : List Nat) : (calc_dvs l).2 ≤ 9 := by
  rw [calc_dvs_snd]
  exact dv_mod11_le_nine _ _

theorem padDigits_length (k n : Nat) : (padDigits k n).length = k := by
  simp [padDigits]

theorem padDigits_le_nine (k n : Nat) : ∀ d ∈ padDigits k n, d ≤ 9 := by
  intro d hd
  simp only [padDigits, List.mem_map, List.mem_range] at hd
  obtain ⟨i, _, rfl⟩ := hd
  omega

theorem padDigits_succ (k n : Nat) :
    padDigits (k + 1) n = n / 10 ^ k % 10 :: padDigits k n := by
  simp only [padDigits, List.range_succ_eq_map, List.map_cons, List.map_map]
  refine congrArg₂ _ (by norm_num) ?_
  refine List.map_congr_left fun i _ => ?_
  have h : k - (i + 1) = k - 1 - i := by omega
  simp [Function.comp, h]

theorem foldl_padDigits (k : Nat) : ∀ n a : Nat,
    List.foldl (fun a d => a * 10 + d) a (padDigits k n) = a * 10 ^ k + n % 10 ^ k := by
  induction k with
  | zero => intro n a; simp [padDigits, Nat.mod_one]
  | succ k ih =>
    intro n a
    rw [padDigits_succ, List.foldl_cons, ih]
    have h10 : (10 : Nat) ^ (k + 1) = 10 ^ k * 10 := pow_succ 10 k
    have hm : n % 10 ^ (k + 1) = n % 10 ^ k + 10 ^ k * (n / 10 ^ k % 10) := by
      rw [h10, Nat.mod_mul]
    rw [hm, h10]
    ring

theorem digitChar_toNat (d : Nat) (h : d ≤ 9) : (Nat.digitChar d).toNat - 48 = d := by
  interval_cases d <;> rfl

theorem digitChar_isDigit (d : Nat) (h : d ≤ 9) : (Nat.digitChar d).isDigit = true := by
  interval_cases d <;> rfl

theorem foldl_digitsToChars (ds : List Nat) (hds : ∀ d ∈ ds, d ≤ 9) : ∀ a : Nat,
    List.foldl (fun a c => a * 10 + (c.toNat - 48)) a (digitsToChars ds) =
      List.foldl (fun a d => a * 10 + d) a ds := by
  induction ds with
  | nil => intro a; rfl
  | cons d rest ih =>
    intro a
    simp only [digitsToChars, List.map_cons, List.foldl_cons]
    rw [digitChar_toNat d (hds d (by simp))]
    exact ih (fun x hx => hds x (by simp [hx])) _

theorem charsVal_padDigits (k n : Nat) :
    charsVal (digitsToChars (padDigits k n)) = n % 10 ^ k := by
  unfold charsVal
  rw [foldl_digitsToChars _ (padDigits_le_nine k n), foldl_padDigits]
  simp

theorem digitsToChars_all_isDigit (ds : List Nat) (hds : ∀ d ∈ ds, d ≤ 9) :
    ∀ c ∈ digitsToChars ds, c.isDigit = true := by
  intro c hc
  simp only [digitsToChars, List.mem_map] at hc
  obtain ⟨d, hd, rfl⟩ := hc
  exact digitChar_isDigit d (hds d hd)

/-- Every digit of the assembled 14-digit sequence is at most 9. -/
theorem cnpj14_digits_le_nine (raiz filial : Nat) :
    ∀ d ∈ cnpj14_digits raiz filial, d ≤ 9 := by
  intro d hd
  simp only [cnpj14_digits, calc_dvs, List.append_assoc, List.mem_append,
    List.mem_cons, List.not_mem_nil, or_false] at hd
  rcases hd with h | h | h | h
  · exact padDigits_le_nine 8 raiz d h
  · exact padDigits_le_nine 4 filial d h
  · rw [h]
    exact dv_mod11_le_nine _ _
  · rw [h]
    exact dv_mod11_le_nine _ _

theorem cnpj14_digits_length (raiz filial : Nat) :
    (cnpj14_digits raiz filial).length = 14 := by
  simp [cnpj14_digits, padDigits_length]

/-- Reassembling the five mask slices of a 14-element list gives the list back. -/
theorem mask_slices_reassemble (l : List Char) (hl : l.length = 14) :
    l.take 2 ++ (l.drop 2).take 3 ++ (l.drop 5).take 3 ++ (l.drop 8).take 4
      ++ (l.drop 12).take 2 = l := by
  have h5 : l.take 5 = l.take 2 ++ (l.drop 2).take 3 := List.take_add l 2 3
  have h8 : l.take 8 = l.take 5 ++ (l.drop 5).take 3 := List.take_add l 5 3
  have h12 : l.take 12 = l.take 8 ++ (l.drop 8).take 4 := List.take_add l 8 4
  have h14 : l.take 14 = l.take 12 ++ (l.drop 12).take 2 := List.take_add l 12 2
  have h : l.take 14 = l := List.take_of_length_le (by omega)
  conv_rhs => rw [← h, h14, h12, h8, h5]

/-- Filtering the digits out of a masked all-digit 14-character string recovers
the string: the separators are not digits and every digit survives. -/
theorem filter_mascarar (l : List Char) (hl : l.length = 14)
    (hdig : ∀ c ∈ l, c.isDigit = true) :
    (mascarar l).filter Char.isDigit = l := by
  have ht : ∀ n m : Nat, ((l.drop n).take m).filter Char.isDigit = (l.drop n).take m := by
    intro n m
    exact List.filter_eq_self.mpr fun c hc =>
      hdig c (List.mem_of_mem_drop (List.mem_of_mem_take hc))
  have ht0 : (l.take 2).filter Char.isDigit = l.take 2 :=
    List.filter_eq_self.mpr fun c hc => hdig c (List.mem_of_mem_take hc)
  have hdot : ([ '.' ] : List Char).filter Char.isDigit = [] := rfl
  have hslash : ([ '/' ] : List Char).filter Char.isDigit = [] := rfl
  have hdash : ([ '-' ] : List Char).filter Char.isDigit = [] := rfl
  simp only [mascarar, List.filter_append, ht, ht0, hdot, hslash, hdash,
    List.nil_append, List.append_nil]
  simpa [List.append_assoc] using mask_slices_reassemble l hl

/-! ### Basic facts about the checksum -/

/-- C1: `calc_dvs` computes `d1` from the 12 base digits with `PESOS_DV1` and
`d2` from the 13-digit extension with `PESOS_DV2`, is pure (equal results on
equal inputs), and both returned digits lie in `0..9`. -/
theorem calc_dvs_spec (base12 : List Nat) (_hlen : base12.length = 12)
    (_hdig : ∀ d ∈ base12, d ≤ 9) :
    calc_dvs base12 =
      (dv_mod11 base12 PESOS_DV1,
       dv_mod11 (base12 ++ [dv_mod11 base12 PESOS_DV1]) PESOS_DV2) ∧
    calc_dvs base12 = calc_dvs base12 ∧
    (calc_dvs base12).1 ≤ 9 ∧ (calc_dvs base12).2 ≤ 9 := by
  refine ⟨rfl, rfl, ?_, ?_⟩
  · exact dv_mod11_le_nine _ _
  · exact dv_mod11_le_nine _ _

/-- Witness for C1 at the concrete base `11.222.333/0001`. -/
theorem calc_dvs_spec_witness :
    calc_dvs [1, 1, 2, 2, 2, 3, 3, 3, 0, 0, 0, 1] =
      (dv_mod11 [1, 1, 2, 2, 2, 3, 3, 3, 0, 0, 0, 1] PESOS_DV1,
       dv_mod11 ([1, 1, 2, 2, 2, 3, 3, 3, 0, 0, 0, 1] ++
         [dv_mod11 [1, 1, 2, 2, 2, 3, 3, 3, 0, 0, 0, 1] PESOS_DV1]) PESOS_DV2) ∧
    calc_dvs [1, 1, 2, 2, 2, 3, 3, 3, 0, 0, 0, 1] =
      calc_dvs [1, 1, 2, 2, 2, 3, 3, 3, 0, 0, 0, 1] ∧
    (calc_dvs [1, 1, 2, 2, 2, 3, 3, 3, 0, 0, 0, 1]).1 ≤ 9 ∧
    (calc_dvs [1, 1, 2, 2, 2, 3, 3, 3, 0, 0, 0, 1]).2 ≤ 9 :=
  calc_dvs_spec [1, 1, 2, 2, 2, 3, 3, 3, 0, 0, 0, 1] (by decide) (by decide)

/-! ### Formatter and parser claims -/

/-- Helper for the round trip: any string whose digit content is exactly the
assembled 14-digit sequence parses back to `(raiz, filial)`. -/
theorem parse_of_filter (raiz filial : Nat) (hr : raiz ≤ 99999999) (hf : filial ≤ 9999)
    (l : List Char)
    (hfil : l.filter Char.isDigit = digitsToChars (cnpj14_digits raiz filial)) :
    parse_cnpj_like l = .ok (raiz, filial) := by
  have hA : (digitsToChars (padDigits 8 raiz)).length = 8 := by
    simp [digitsToChars, padDigits_length]
  have hB : (digitsToChars (padDigits 4 filial)).length = 4 := by
    simp [digitsToChars, padDigits_length]
  have hsplit : digitsToChars (cnpj14_digits raiz filial) =
      digitsToChars (padDigits 8 raiz) ++ (digitsToChars (padDigits 4 filial) ++
        digitsToChars [(calc_dvs (padDigits 8 raiz ++ padDigits 4 filial)).1,
          (calc_dvs (padDigits 8 raiz ++ padDigits 4 filial)).2]) := by
    simp [cnpj14_digits, digitsToChars, List.map_append, List.append_assoc]
  have hlen : (digitsToChars (cnpj14_digits raiz filial)).length = 14 := by
    simp [digitsToChars, cnpj14_digits_length raiz filial]
  simp only [parse_cnpj_like, hfil, hlen]
  norm_num
  rw [hsplit, List.take_left' hA, List.drop_left' hA, List.take_left' hB]
  rw [charsVal_padDigits, charsVal_padDigits]
  constructor
  · exact Nat.mod_eq_of_lt (by omega)
  · exact Nat.mod_eq_of_lt (by omega)

/-- C10: for every accepted `(root, branch)` pair, parsing the rendered
identifier (masked or raw) recovers exactly the original pair. -/
theorem montar_parse_roundtrip (raiz filial : Nat) (m : Bool) (out : List Char)
    (hr : raiz ≤ 99999999) (hf : filial ≤ 9999)
    (hout : montar_cnpj raiz filial m = some out) :
    parse_cnpj_like out = .ok (raiz, filial) := by
  have hdig : ∀ c ∈ digitsToChars (cnpj14_digits raiz filial), c.isDigit = true :=
    digitsToChars_all_isDigit _ (cnpj14_digits_le_nine raiz filial)
  have hlen : (digitsToChars (cnpj14_digits raiz filial)).length = 14 := by
    simp [digitsToChars, cnpj14_digits_length raiz filial]
  by_cases hseq : is_sequencia_invalida (digitsToChars (cnpj14_digits raiz filial))
  · simp [montar_cnpj, hseq] at hout
  · cases m with
    | false =>
      simp [montar_cnpj, hseq] at hout
      subst hout
      exact parse_of_filter raiz filial hr hf _ (List.filter_eq_self.mpr hdig)
    | true =>
      simp [montar_cnpj, hseq] at hout
      subst hout
      exact parse_of_filter raiz filial hr hf _ (filter_mascarar _ hlen hdig)

/-- Witness for C10 at root 11222333, branch 1, masked rendering. -/
theorem montar_parse_roundtrip_witness :
    parse_cnpj_like ("11.222.333/0001-81".toList) = .ok (11222333, 1) :=
  montar_parse_roundtrip 11222333 1 true ("11.222.333/0001-81".toList)
    (by decide) (by decide) (by decide)

/-- C4: `montar_cnpj` never returns an identifier whose 14 digits are all
equal; whenever the assembled sequence is degenerate it returns `none`. -/
theorem montar_cnpj_rejects_degenerate (raiz filial : Nat) (m : Bool)
    (_hr : raiz ≤ 99999999) (_hf : filial ≤ 9999) :
    (is_sequencia_invalida (digitsToChars (cnpj14_digits raiz filial)) = true →
        montar_cnpj raiz filial m = none) ∧
    ∀ out, montar_cnpj raiz filial m = some out →
        is_sequencia_invalida (digitsToChars (cnpj14_digits raiz filial)) = false := by
  constructor
  · intro h
    simp [montar_cnpj, h]
  · intro out hout
    by_cases h : is_sequencia_invalida (digitsToChars (cnpj14_digits raiz filial))
    · simp [montar_cnpj, h] at hout
    · simpa using h

/-- Witness for C4: the all-zero root and branch produce the degenerate
all-zero sequence and are rejected. -/
theorem montar_cnpj_rejects_degenerate_witness :
    montar_cnpj 0 0 false = none :=
  (montar_cnpj_rejects_degenerate 0 0 false (by decide) (by decide)).1 (by decide)

/-- C8: `parse_cnpj_like` strips all non-digit characters; it errors exactly
when fewer than 12 digits remain, and otherwise returns the integer values of
the first 8 digits (root) and the next 4 digits (branch). -/
theorem parse_cnpj_like_spec (s : List Char) :
    (∀ r f, parse_cnpj_like s = .ok (r, f) →
        12 ≤ (s.filter Char.isDigit).length ∧
        r = charsVal ((s.filter Char.isDigit).take 8) ∧
        f = charsVal (((s.filter Char.isDigit).drop 8).take 4)) ∧
    ((∃ e, parse_cnpj_like s = .error e) ↔ (s.filter Char.isDigit).length < 12) := by
  by_cases h : (s.filter Char.isDigit).length < 12
  · refine ⟨fun r f hrf => ?_, ?_⟩
    · simp [parse_cnpj_like, h] at hrf
    · simp [parse_cnpj_like, h]
  · refine ⟨fun r f hrf => ?_, ?_⟩
    · simp only [parse_cnpj_like, if_neg h, Except.ok.injEq, Prod.mk.injEq] at hrf
      exact ⟨by omega, hrf.1.symm, hrf.2.symm⟩
    · simp [parse_cnpj_like, h]

/-- Witness for C8 on a masked input with exactly 14 digits. -/
theorem parse_cnpj_like_spec_witness :
    12 ≤ (("12.345.678/0001-95".toList).filter Char.isDigit).length ∧
    12345678 = charsVal ((("12.345.678/0001-95".toList).filter Char.isDigit).take 8) ∧
    1 = charsVal (((("12.345.678/0001-95".toList).filter Char.isDigit).drop 8).take 4) :=
  (parse_cnpj_like_spec ("12.345.678/0001-95".toList)).1 12345678 1 (by rfl)

/-! ### Chunked-writer claim -/

/-- C6: with `chunk_size = 3`, seven `write_line` calls produce exactly the
three files `<name>_00001.txt`, `<name>_00002.txt`, `<name>_00003.txt`
holding 3, 3 and 1 lines, each stored line followed by exactly one terminator;
`close` twice equals `close` once; with chunking disabled a single
`<name>.txt` is produced. -/
theorem chunkWriter_spec (p l1 l2 l3 l4 l5 l6 l7 : List Char) :
    (List.foldl ChunkWriter.write_line (ChunkWriter.init p 3 0)
        [l1, l2, l3, l4, l5, l6, l7]).files =
      [(chunkName p 1, [l1 ++ [ '\n' ], l2 ++ [ '\n' ], l3 ++ [ '\n' ]]),
       (chunkName p 2, [l4 ++ [ '\n' ], l5 ++ [ '\n' ], l6 ++ [ '\n' ]]),
       (chunkName p 3, [l7 ++ [ '\n' ]])] ∧
    chunkName p 1 = p ++ "_00001.txt".toList ∧
    chunkName p 2 = p ++ "_00002.txt".toList ∧
    chunkName p 3 = p ++ "_00003.txt".toList ∧
    (∀ w : ChunkWriter, w.close.close = w.close) ∧
    ((ChunkWriter.init p 0 0).write_line l1).files =
      [(p ++ ".txt".toList, [l1 ++ [ '\n' ]])] := by
  have hname : ∀ idx s, ([ '_' ] : List Char) ++ digitsToChars (padDigits 5 idx)
      ++ ".txt".toList = s → chunkName p idx = p ++ s := by
    intro idx s h
    simp only [chunkName, List.append_assoc]
    simp only [List.append_assoc] at h
    rw [← h]
  have e1 : (ChunkWriter.init p 3 0).write_line l1 =
      chunkState p 1 1 1 [(chunkName p 1, [l1 ++ [ '\n' ]])] := rfl
  have e2 : (chunkState p 1 1 1 [(chunkName p 1, [l1 ++ [ '\n' ]])]).write_line l2 =
      chunkState p 2 2 1 [(chunkName p 1, [l1 ++ [ '\n' ], l2 ++ [ '\n' ]])] := rfl
  have e3 : (chunkState p 2 2 1
        [(chunkName p 1, [l1 ++ [ '\n' ], l2 ++ [ '\n' ]])]).write_line l3 =
      chunkState p 3 3 1 [(chunkName p 1, [l1 ++ [ '\n' ], l2 ++ [ '\n' ], l3 ++ [ '\n' ]])] := rfl
  have e4 : (chunkState p 3 3 1
        [(chunkName p 1, [l1 ++ [ '\n' ], l2 ++ [ '\n' ], l3 ++ [ '\n' ]])]).write_line l4 =
      chunkState p 4 1 2 [(chunkName p 1, [l1 ++ [ '\n' ], l2 ++ [ '\n' ], l3 ++ [ '\n' ]]),
        (chunkName p 2, [l4 ++ [ '\n' ]])] := rfl
  have e5 : (chunkState p 4 1 2
        [(chunkName p 1, [l1 ++ [ '\n' ], l2 ++ [ '\n' ], l3 ++ [ '\n' ]]),
         (chunkName p 2, [l4 ++ [ '\n' ]])]).write_line l5 =
      chunkState p 5 2 2 [(chunkName p 1, [l1 ++ [ '\n' ], l2 ++ [ '\n' ], l3 ++ [ '\n' ]]),
        (chunkName p 2, [l4 ++ [ '\n' ], l5 ++ [ '\n' ]])] := rfl
  have e6 : (chunkState p 5 2 2
        [(chunkName p 1, [l1 ++ [ '\n' ], l2 ++ [ '\n' ], l3 ++ [ '\n' ]]),
         (chunkName p 2, [l4 ++ [ '\n' ], l5 ++ [ '\n' ]])]).write_line l6 =
      chunkState p 6 3 2 [(chunkName p 1, [l1 ++ [ '\n' ], l2 ++ [ '\n' ], l3 ++ [ '\n' ]]),
        (chunkName p 2, [l4 ++ [ '\n' ], l5 ++ [ '\n' ], l6 ++ [ '\n' ]])] := rfl
  have e7 : (chunkState p 6 3 2
        [(chunkName p 1, [l1 ++ [ '\n' ], l2 ++ [ '\n' ], l3 ++ [ '\n' ]]),
         (chunkName p 2, [l4 ++ [ '\n' ], l5 ++ [ '\n' ], l6 ++ [ '\n' ]])]).write_line l7 =
      chunkState p 7 1 3 [(chunkName p 1, [l1 ++ [ '\n' ], l2 ++ [ '\n' ], l3 ++ [ '\n' ]]),
        (chunkName p 2, [l4 ++ [ '\n' ], l5 ++ [ '\n' ], l6 ++ [ '\n' ]]),
        (chunkName p 3, [l7 ++ [ '\n' ]])] := rfl
  refine ⟨?_, hname 1 _ (by decide), hname 2 _ (by decide), hname 3 _ (by decide),
    fun w => rfl, rfl⟩
  simp only [List.foldl, e1, e2, e3, e4, e5, e6, e7]
  rfl

/-! ### Configuration-error claim -/

/-- C7: each configuration error — random-mode root range invalid,
sequential-mode shard index out of `[0, total)`, windowed-mode quantity
exceeding the window size — makes the run fail with an error; the error branch
of each run function carries no output lines, so no line is ever written. -/
theorem config_errors_abort
    (raiz_min raiz_max : Int) (quant : Nat) (fa : Bool) (ff : Option Int) (m : Bool)
    (draws : List (Nat × Nat))
    (inicio fim passo : Nat) (shards_total shard_index : Int) (alvo : Option Nat) (np : Bool)
    (base : List Char) (spread q2 : Nat) (aDraws : List Nat) (b fuel r f : Nat) :
    ((raiz_min > raiz_max ∨ raiz_min < 0 ∨ raiz_min > 99999999 ∨
        raiz_max < 0 ∨ raiz_max > 99999999) →
      ∃ e, runRandomMode quant raiz_min raiz_max fa ff m draws = .error e) ∧
    (¬(0 ≤ shard_index ∧ shard_index < shards_total) →
      ∃ e, runSeqMode inicio fim passo shards_total shard_index alvo m np = .error e) ∧
    (parse_cnpj_like base = .ok (r, f) → q2 > (windowOf r spread).2.2 →
      ∃ e, runAround base spread q2 m aDraws b fuel = .error e) := by
  refine ⟨fun h => ?_, fun h => ?_, fun hp hq => ?_⟩
  · have hcond : raiz_min < 0 ∨ raiz_max > 99999999 ∨ raiz_min > raiz_max := by omega
    simp only [runRandomMode]
    rw [if_pos hcond]
    exact ⟨_, rfl⟩
  · simp only [runSeqMode]
    rw [if_pos h]
    exact ⟨_, rfl⟩
  · simp only [runAround, hp]
    rw [if_pos hq]
    exact ⟨_, rfl⟩

/-- Witness for C7: `raiz_min = 5 > raiz_max = 3` aborts the random mode,
`shard_index = 3 ∉ [0, 3)` aborts the sequential mode, and quantity 5 over the
size-4 window of root 1 with spread 2 aborts the around mode. -/
theorem config_errors_abort_witness :
    (∃ e, runRandomMode 1 5 3 false none false [] = .error e) ∧
    (∃ e, runSeqMode 0 9 1 3 3 none false false = .error e) ∧
    (∃ e, runAround ("000000010001".toList) 2 5 false [2] 0 5 = .error e) :=
  ⟨(config_errors_abort 5 3 1 false none false [] 0 9 1 3 3 none false
      ("000000010001".toList) 2 5 [2] 0 5 1 1).1 (by omega),
   (config_errors_abort 5 3 1 false none false [] 0 9 1 3 3 none false
      ("000000010001".toList) 2 5 [2] 0 5 1 1).2.1 (by omega),
   (config_errors_abort 5 3 1 false none false [] 0 9 1 3 3 none false
      ("000000010001".toList) 2 5 [2] 0 5 1 1).2.2 (by rfl) (by decide)⟩

/-! ### Determinism claim -/

/-- C9: each strategy is a pure function of its parameters and (for the random
and windowed strategies) of the explicitly passed draw stream; a fixed seed
fixes the draw stream, so two runs with the same seed and parameters produce
identical output, and the sequential mode takes no randomness at all, so its
output depends only on its parameters. -/
theorem strategies_deterministic :
    (∀ quant rmin rmax fa ff m draws,
      runRandomMode quant rmin rmax fa ff m draws =
        runRandomMode quant rmin rmax fa ff m draws) ∧
    (∀ base spread q m aDraws b fuel,
      runAround base spread q m aDraws b fuel =
        runAround base spread q m aDraws b fuel) ∧
    (∀ inicio fim passo st si alvo m np,
      runSeqMode inicio fim passo st si alvo m np =
        runSeqMode inicio fim passo st si alvo m np) :=
  ⟨fun _ _ _ _ _ _ _ => rfl, fun _ _ _ _ _ _ _ => rfl, fun _ _ _ _ _ _ _ _ => rfl⟩

/-! ### The coprime-multiplier selection (claim C5)

The sampler draws from `randrange(2, N-1) = {2, …, N-2}` and loops until the
draw is coprime to `N`.  For `N ∈ {4, 6}` no element of that range is coprime
to `N`, so the loop can never return (and for `N ≤ 3` the range is empty and
`randrange` raises); the claim therefore fails for small windows and holds for
every other window size. -/

/-- Partial correctness of `coprime_to`: whatever it returns came from the
draw stream and is coprime to `N`. -/
theorem coprime_to_sound (N : Nat) : ∀ draws a, coprime_to N draws = some a →
    a ∈ draws ∧ Nat.gcd a N = 1 := by
  intro draws
  induction draws with
  | nil => intro a h; simp [coprime_to] at h
  | cons d rest ih =>
    intro a h
    by_cases hg : Nat.gcd d N = 1
    · simp only [coprime_to, if_pos hg, Option.some.injEq] at h
      subst h
      exact ⟨by simp, hg⟩
    · simp only [coprime_to, if_neg hg] at h
      obtain ⟨hmem, hgcd⟩ := ih a h
      exact ⟨by simp [hmem], hgcd⟩

/-- For `N ≥ 5`, `N ≠ 6`, the sampling range `{2, …, N-2}` contains a value
coprime to `N`. -/
theorem exists_coprime_in_range (N : Nat) (h5 : 5 ≤ N) (h6 : N ≠ 6) :
    ∃ a, 2 ≤ a ∧ a ≤ N - 2 ∧ Nat.gcd a N = 1 := by
  rcases Nat.even_or_odd N with he | ho
  · obtain ⟨m, hm⟩ := he
    rcases Nat.even_or_odd m with hme | hmo
    · obtain ⟨t, ht⟩ := hme
      refine ⟨2 * t - 1, by omega, by omega, ?_⟩
      have hga := Nat.gcd_dvd_left (2 * t - 1) N
      have hgN := Nat.gcd_dvd_right (2 * t - 1) N
      have h1 : Nat.gcd (2 * t - 1) N ∣ 2 * (2 * t - 1) := Dvd.dvd.mul_left hga 2
      have h2 : Nat.gcd (2 * t - 1) N ∣ 2 := by
        have hsub := Nat.dvd_sub' hgN h1
        have hval : N - 2 * (2 * t - 1) = 2 := by omega
        rwa [hval] at hsub
      rcases (Nat.dvd_prime Nat.prime_two).mp h2 with h | h
      · exact h
      · exfalso
        rw [h] at hga
        obtain ⟨k, hk⟩ := hga
        omega
    · refine ⟨m - 2, by omega, by omega, ?_⟩
      have hga := Nat.gcd_dvd_left (m - 2) N
      have hgN := Nat.gcd_dvd_right (m - 2) N
      have h1 : Nat.gcd (m - 2) N ∣ 2 * (m - 2) := Dvd.dvd.mul_left hga 2
      have h4 : Nat.gcd (m - 2) N ∣ 4 := by
        have hsub := Nat.dvd_sub' hgN h1
        have hval : N - 2 * (m - 2) = 4 := by omega
        rwa [hval] at hsub
      have hpos : 0 < Nat.gcd (m - 2) N := Nat.gcd_pos_of_pos_right _ (by omega)
      have hle : Nat.gcd (m - 2) N ≤ 4 := Nat.le_of_dvd (by omega) h4
      obtain ⟨j, hj⟩ := hmo
      set g := Nat.gcd (m - 2) N with hgdef
      interval_cases g
      · rfl
      · exfalso; obtain ⟨k, hk⟩ := hga; omega
      · exfalso; obtain ⟨k, hk⟩ := h4; omega
      · exfalso; obtain ⟨k, hk⟩ := hga; omega
  · refine ⟨2, by omega, by omega, ?_⟩
    have hd := Nat.gcd_dvd_left 2 N
    have hdN := Nat.gcd_dvd_right 2 N
    rcases (Nat.dvd_prime Nat.prime_two).mp hd with h | h
    · exact h
    · exfalso
      rw [h] at hdN
      obtain ⟨k, hk⟩ := hdN
      obtain ⟨j, hj⟩ := ho
      omega

/-- C5 (amended): for every window size `N ≥ 5` with `N ≠ 6`, a multiplier
`a ∈ {2, …, N-2}` coprime to `N` exists (so a fair draw stream eventually
terminates the loop), and whenever the sampler returns on draws taken from
`randrange(2, N-1)`'s range, the returned `a` lies in `{2, …, N-2}` and is
coprime to `N`. -/
theorem coprime_to_spec (N : Nat) (h5 : 5 ≤ N) (h6 : N ≠ 6) :
    (∃ a, 2 ≤ a ∧ a ≤ N - 2 ∧ Nat.gcd a N = 1) ∧
    (∀ draws a, (∀ d ∈ draws, 2 ≤ d ∧ d ≤ N - 2) → coprime_to N draws = some a →
        2 ≤ a ∧ a ≤ N - 2 ∧ Nat.gcd a N = 1) := by
  refine ⟨exists_coprime_in_range N h5 h6, fun draws a hd h => ?_⟩
  obtain ⟨hmem, hgcd⟩ := coprime_to_sound N draws a h
  obtain ⟨h2, hN2⟩ := hd a hmem
  exact ⟨h2, hN2, hgcd⟩

/-- Witness for the amended C5 at `N = 8` with the draw stream `[4, 3]`. -/
theorem coprime_to_spec_witness :
    2 ≤ 3 ∧ 3 ≤ 8 - 2 ∧ Nat.gcd 3 8 = 1 :=
  (coprime_to_spec 8 (by omega) (by omega)).2 [4, 3] 3 (by decide) (by decide)

/-- Counterexample to C5 as stated: the configuration with base root 1 and
`spread = 2` is valid (`N = 4 ≥ 1`, quantity `1 ≤ 4`), yet no value in the
sampling range `{2, …, N-2} = {2}` is coprime to `4`, so the selection loop
cannot return: concretely, every `randrange(2, 3)` draw is `2` and the sampler
rejects 100 such draws without returning. -/
theorem coprime_to_counterexample :
    windowOf 1 2 = (0, 3, 4) ∧ (1 : Nat) ≤ 4 ∧
    coprime_to 4 (List.replicate 100 2) = none ∧
    (Finset.Ico 2 3).filter (fun a => Nat.gcd a 4 = 1) = ∅ :=
  ⟨rfl, by omega, by decide, by decide⟩

/-! ### The windowed no-repeat strategy (claim C2) -/

/-- With the fixed branch 1, the assembled sequence contains both a `0` and a
`1` digit (positions 8–11 are `0001`), so it is never degenerate. -/
theorem is_seq_false_filial_one (raiz : Nat) :
    is_sequencia_invalida (digitsToChars (cnpj14_digits raiz 1)) = false := by
  have hp : padDigits 4 1 = [0, 0, 0, 1] := rfl
  have h0 : (0 : Nat) ∈ cnpj14_digits raiz 1 := by
    simp [cnpj14_digits, hp]
  have h1 : (1 : Nat) ∈ cnpj14_digits raiz 1 := by
    simp [cnpj14_digits, hp]
  have hc0 : '0' ∈ digitsToChars (cnpj14_digits raiz 1) :=
    List.mem_map_of_mem Nat.digitChar h0
  have hc1 : '1' ∈ digitsToChars (cnpj14_digits raiz 1) :=
    List.mem_map_of_mem Nat.digitChar h1
  have hcard : 1 < (digitsToChars (cnpj14_digits raiz 1)).toFinset.card :=
    Finset.one_lt_card.mpr
      ⟨'0', List.mem_toFinset.mpr hc0, '1', List.mem_toFinset.mpr hc1, by decide⟩
  simp only [is_sequencia_invalida, beq_eq_false_iff_ne, ne_eq]
  omega

/-- `montar_cnpj` with branch 1 always accepts. -/
theorem montar_filial_one (raiz : Nat) (m : Bool) :
    montar_cnpj raiz 1 m = some (aroundLine raiz m) := by
  simp [montar_cnpj, is_seq_false_filial_one raiz, aroundLine]

set_option maxHeartbeats 1600000 in
/-- With branch 1 no iteration of the `around` loop skips, so `fuel = need`
iterations emit exactly the permuted window roots in order. -/
theorem aroundGo_no_skip (a b N lo : Nat) (m : Bool) : ∀ k i,
    aroundGo a b N lo m k k i =
      (List.range k).map (fun t => aroundLine (lo + permute_index (i + t) N a b) m) := by
  intro k
  induction k with
  | zero => intro i; rfl
  | succ k ih =>
    intro i
    simp only [aroundGo]
    rw [montar_filial_one]
    rw [List.range_succ_eq_map]
    simp only [List.map_cons, List.map_map, ih (i + 1)]
    refine congrArg₂ _ (by simp) ?_
    refine List.map_congr_left fun t _ => ?_
    have h : i + 1 + t = i + (t + 1) := by omega
    simp [Function.comp, h]

/-- The affine permutation is injective on `{0, …, 20}` when `gcd(a, 21) = 1`. -/
theorem permute_index_inj (a b i j : Nat) (hgcd : Nat.gcd a 21 = 1)
    (hi : i < 21) (hj : j < 21)
    (h : permute_index i 21 a b = permute_index j 21 a b) : i = j := by
  have h1 : a * i + b ≡ a * j + b [MOD 21] := h
  have h2 : a * i ≡ a * j [MOD 21] := h1.add_right_cancel' b
  have h3 : i ≡ j [MOD 21] := h2.cancel_left_of_coprime (by rwa [Nat.gcd_comm] at hgcd)
  have h4 : i % 21 = j % 21 := h3
  rwa [Nat.mod_eq_of_lt hi, Nat.mod_eq_of_lt hj] at h4

/-- C2: on the full window around root 50 with `spread = 10` (window
`{40, …, 60}`, `N = 21`) and `quantity = 21`, the run emits exactly 21 lines —
the rendered roots `lo + (a*i + b) % N` for `i = 0, …, 20` — and those roots
are pairwise distinct and cover `{40, …, 60}` exactly, for every multiplier
`a ∈ {2, …, 19}` coprime to 21 and every offset `b` (hence for every seed). -/
theorem around_full_window (a b : Nat) (m : Bool) (_ha2 : 2 ≤ a) (_ha19 : a ≤ 19)
    (hgcd : Nat.gcd a 21 = 1) :
    runAround ("000000500001".toList) 10 21 m [a] b 21 =
      .ok ((List.range 21).map (fun i => aroundLine (40 + permute_index i 21 a b) m)) ∧
    ((List.range 21).map (fun i => 40 + permute_index i 21 a b)).length = 21 ∧
    ((List.range 21).map (fun i => 40 + permute_index i 21 a b)).Nodup ∧
    ((List.range 21).map (fun i => 40 + permute_index i 21 a b)).toFinset =
      Finset.Icc 40 60 := by
  have hinj : ∀ i ∈ List.range 21, ∀ j ∈ List.range 21,
      40 + permute_index i 21 a b = 40 + permute_index j 21 a b → i = j := by
    intro i hi j hj h
    exact permute_index_inj a b i j hgcd (List.mem_range.mp hi) (List.mem_range.mp hj)
      (by omega)
  have hnodup : ((List.range 21).map (fun i => 40 + permute_index i 21 a b)).Nodup :=
    List.Nodup.map_on hinj (List.nodup_range 21)
  refine ⟨?_, by simp, hnodup, ?_⟩
  · have hparse : parse_cnpj_like ("000000500001".toList) = .ok (50, 1) := rfl
    have hcop : coprime_to 21 [a] = some a := by
      simp [coprime_to, hgcd]
    simp only [runAround, hparse]
    rw [show windowOf 50 10 = (40, 60, 21) from rfl]
    rw [if_neg (by decide)]
    rw [show coprime_to ((40 : Nat), (60 : Nat), (21 : Nat)).2.2 [a] =
      coprime_to 21 [a] from rfl, hcop]
    show Except.ok (aroundGo a b 21 40 m 21 21 0) = _
    rw [aroundGo_no_skip a b 21 40 m 21 0]
    simp
  · have hsub : ((List.range 21).map (fun i => 40 + permute_index i 21 a b)).toFinset ⊆
        Finset.Icc 40 60 := by
      intro x hx
      simp only [List.mem_toFinset, List.mem_map, List.mem_range] at hx
      obtain ⟨i, _, rfl⟩ := hx
      have : permute_index i 21 a b < 21 := Nat.mod_lt _ (by omega)
      simp only [Finset.mem_Icc]
      omega
    have hcard : Finset.Icc 40 60 ⊆
        ((List.range 21).map (fun i => 40 + permute_index i 21 a b)).toFinset := by
      apply Finset.subset_of_eq
      symm
      apply Finset.eq_of_subset_of_card_le hsub
      rw [List.toFinset_card_of_nodup hnodup]
      simp [Nat.card_Icc]
    exact Finset.Subset.antisymm hsub hcard

/-- Witness for C2 at `a = 2`, `b = 0`, unmasked. -/
theorem around_full_window_witness :
    runAround ("000000500001".toList) 10 21 false [2] 0 21 =
      .ok ((List.range 21).map (fun i => aroundLine (40 + permute_index i 21 2 0) false)) ∧
    ((List.range 21).map (fun i => 40 + permute_index i 21 2 0)).length = 21 ∧
    ((List.range 21).map (fun i => 40 + permute_index i 21 2 0)).Nodup ∧
    ((List.range 21).map (fun i => 40 + permute_index i 21 2 0)).toFinset =
      Finset.Icc 40 60 :=
  around_full_window 2 0 false (by omega) (by omega) (by decide)

/-! ### The sequential sharded strategy (claim C3) -/

/-- Membership in the stepped index stream: exactly the arithmetic progression
`i, i+stride, …` capped at `fim`. -/
theorem seqLoopIdx_mem (fim stride : Nat) (hs : 0 < stride) :
    ∀ i x, x ∈ seqLoopIdx fim stride i ↔ ∃ k, x = i + k * stride ∧ x ≤ fim := by
  have main : ∀ fuel i x, fim + 1 - i ≤ fuel →
      (x ∈ seqLoopIdx fim stride i ↔ ∃ k, x = i + k * stride ∧ x ≤ fim) := by
    intro fuel
    induction fuel with
    | zero =>
      intro i x hfuel
      rw [seqLoopIdx, dif_neg (by omega)]
      simp only [List.not_mem_nil, false_iff, not_exists, not_and]
      intro k hx
      omega
    | succ fuel ih =>
      intro i x hfuel
      rw [seqLoopIdx]
      by_cases hcond : 0 < stride ∧ i ≤ fim
      · rw [dif_pos hcond]
        simp only [List.mem_cons]
        rw [ih (i + stride) x (by omega)]
        constructor
        · rintro (rfl | ⟨k, hx, hk⟩)
          · exact ⟨0, by omega, hcond.2⟩
          · refine ⟨k + 1, ?_, hk⟩
            rw [hx]
            ring
        · rintro ⟨k, hx, hk⟩
          cases k with
          | zero => left; omega
          | succ k =>
            right
            refine ⟨k, ?_, hk⟩
            rw [hx]
            ring
      · rw [dif_neg hcond]
        simp only [List.not_mem_nil, false_iff, not_exists, not_and]
        intro k hx
        omega
  intro i x
  exact main (fim + 1 - i) i x le_rfl

/-- The shard offset is below 3 and aligns the start with the shard's residue
class: `(inicio + offset) % 3 = s`. -/
theorem seqStart_spec (inicio s : Nat) (hs : s < 3) :
    inicio ≤ seqStart inicio s 3 ∧ seqStart inicio s 3 < inicio + 3 ∧
    seqStart inicio s 3 % 3 = s := by
  unfold seqStart seqOffset
  omega

/-- Shard membership for `passo = 1`, `total = 3`: shard `s` visits exactly the
values of `[lo, hi]` in residue class `s` mod 3. -/
theorem seqVisited_mem (lo hi s : Nat) (hs : s < 3) (x : Nat) :
    x ∈ seqVisited lo hi 1 3 s ↔ lo ≤ x ∧ x ≤ hi ∧ x % 3 = s := by
  obtain ⟨h1, h2, h3⟩ := seqStart_spec lo s hs
  unfold seqVisited
  rw [show ((1 : Nat) * 3) = 3 from rfl]
  rw [seqLoopIdx_mem hi 3 (by omega) _ x]
  constructor
  · rintro ⟨k, rfl, hk⟩
    refine ⟨by omega, hk, by omega⟩
  · rintro ⟨hlo, hhi, hmod⟩
    refine ⟨(x - seqStart lo s 3) / 3, by omega, hhi⟩

/-- Shard membership for `total = 1`: the full range. -/
theorem seqVisited_total_one (lo hi x : Nat) :
    x ∈ seqVisited lo hi 1 1 0 ↔ lo ≤ x ∧ x ≤ hi := by
  have hstart : seqStart lo 0 1 = lo := by
    unfold seqStart seqOffset
    omega
  unfold seqVisited
  rw [show ((1 : Nat) * 1) = 1 from rfl, hstart]
  rw [seqLoopIdx_mem hi 1 (by omega) lo x]
  constructor
  · rintro ⟨k, rfl, hk⟩
    exact ⟨by omega, hk⟩
  · rintro ⟨hlo, hhi⟩
    exact ⟨x - lo, by omega, hhi⟩

/-- With no quantity target the emission loop keeps every non-skipped index,
rendered in order. -/
theorem seqEmitGo_none (m np : Bool) : ∀ (l : List Nat) (e : Nat),
    seqEmitGo m np none e l =
      (l.filter (fun i => np || !is_sequencia_invalida (seqCnpj14 i))).map
        (seqRender m) := by
  intro l
  induction l with
  | nil => intro e; rfl
  | cons i rest ih =>
    intro e
    by_cases hk : (np || !is_sequencia_invalida (seqCnpj14 i)) = true
    · simp [seqEmitGo, List.filter_cons, hk, seqRender, ih (e + 1)]
    · simp [seqEmitGo, List.filter_cons, hk, ih e]

/-- The digit content of the sequential 14-character sequence. -/
theorem seqCnpj14_eq (i : Nat) : seqCnpj14 i =
    digitsToChars (padDigits 12 i)
      ++ digitsToChars [(calc_dvs (padDigits 12 i)).1, (calc_dvs (padDigits 12 i)).2] := by
  simp [seqCnpj14, digitsToChars, List.map_append]

theorem seqCnpj14_length (i : Nat) : (seqCnpj14 i).length = 14 := by
  rw [seqCnpj14_eq]
  simp [digitsToChars, padDigits_length]

theorem seqCnpj14_all_digits (i : Nat) : ∀ c ∈ seqCnpj14 i, c.isDigit = true := by
  rw [seqCnpj14_eq]
  intro c hc
  rcases List.mem_append.mp hc with h | h
  · exact digitsToChars_all_isDigit _ (padDigits_le_nine 12 i) c h
  · refine digitsToChars_all_isDigit _ ?_ c h
    intro d hd
    rcases List.mem_cons.mp hd with h1 | hd2
    · rw [h1]
      exact calc_dvs_fst_le _
    · rcases List.mem_cons.mp hd2 with h2 | hd3
      · rw [h2]
        exact calc_dvs_snd_le _
      · exact absurd hd3 (List.not_mem_nil d)

/-- The first 12 characters of the sequential sequence recover `i mod 10^12`. -/
theorem seqCnpj14_take12 (i : Nat) :
    charsVal ((seqCnpj14 i).take 12) = i % 10 ^ 12 := by
  have hlen : (digitsToChars (padDigits 12 i)).length = 12 := by
    simp [digitsToChars, padDigits_length]
  rw [seqCnpj14_eq, List.take_left' hlen, charsVal_padDigits]

/-- Two distinct base12 values below `10^12` render distinct sequences. -/
theorem seqCnpj14_inj (i j : Nat) (hi : i ≤ 999999999999) (hj : j ≤ 999999999999)
    (h : seqCnpj14 i = seqCnpj14 j) : i = j := by
  have hv := congrArg (fun l => charsVal (l.take 12)) h
  simp only [seqCnpj14_take12] at hv
  rwa [Nat.mod_eq_of_lt (by omega), Nat.mod_eq_of_lt (by omega)] at hv

/-- Rendering (masked or raw) is injective on base12 values below `10^12`. -/
theorem seqRender_inj (m : Bool) (i j : Nat) (hi : i ≤ 999999999999)
    (hj : j ≤ 999999999999) (h : seqRender m i = seqRender m j) : i = j := by
  cases m with
  | false =>
    exact seqCnpj14_inj i j hi hj (by simpa [seqRender] using h)
  | true =>
    have hmm : mascarar (seqCnpj14 i) = mascarar (seqCnpj14 j) := by
      simpa [seqRender] using h
    have hij : seqCnpj14 i = seqCnpj14 j := by
      calc seqCnpj14 i
          = (mascarar (seqCnpj14 i)).filter Char.isDigit :=
            (filter_mascarar _ (seqCnpj14_length i) (seqCnpj14_all_digits i)).symm
        _ = (mascarar (seqCnpj14 j)).filter Char.isDigit := by rw [hmm]
        _ = seqCnpj14 j :=
            filter_mascarar _ (seqCnpj14_length j) (seqCnpj14_all_digits j)
    exact seqCnpj14_inj i j hi hj hij

/-- Membership in a shard's output lines. -/
theorem seqOutput_mem (lo hi total s : Nat) (m : Bool) (line : List Char) :
    line ∈ seqOutput lo hi total s m ↔
      ∃ i, i ∈ seqVisited lo hi 1 total s ∧
        is_sequencia_invalida (seqCnpj14 i) = false ∧ line = seqRender m i := by
  simp only [seqOutput, List.mem_map, List.mem_filter]
  constructor
  · rintro ⟨i, ⟨hv, hkeep⟩, rfl⟩
    refine ⟨i, hv, ?_, rfl⟩
    simpa using hkeep
  · rintro ⟨i, hv, hkeep, rfl⟩
    exact ⟨i, ⟨hv, by simp [hkeep]⟩, rfl⟩

/-- C3: with `step = 1` and `total = 3`, (i) each shard visits exactly the
arithmetic progression `lo + offset, lo + offset + 3, …` capped at `hi`, with
`offset = (shardIndex − lo mod 3) mod 3`; (ii) different shards' visited sets
are disjoint; (iii) together the three shards visit exactly `[lo, hi]`;
(iv) each shard's run output is its visited values, degenerate sequences
skipped, rendered in order; (v) different shards' output lines are disjoint,
and (vi) a line is output by some shard exactly when the unsharded
(`total = 1`) enumeration outputs it. -/
theorem seq_sharding_partition (lo hi : Nat) (_hle : lo ≤ hi)
    (hhi : hi ≤ 999999999999) (m : Bool) :
    (∀ s, s < 3 → ∀ x, x ∈ seqVisited lo hi 1 3 s ↔
        ∃ k, x = seqStart lo s 3 + k * 3 ∧ x ≤ hi) ∧
    (∀ s1 s2, s1 < 3 → s2 < 3 → s1 ≠ s2 →
        ∀ x, x ∈ seqVisited lo hi 1 3 s1 → x ∉ seqVisited lo hi 1 3 s2) ∧
    (∀ x, (∃ s, s < 3 ∧ x ∈ seqVisited lo hi 1 3 s) ↔ lo ≤ x ∧ x ≤ hi) ∧
    (∀ s : Nat, s < 3 → runSeqMode lo hi 1 3 (s : Int) none m false =
        .ok (seqOutput lo hi 3 s m)) ∧
    (∀ s1 s2, s1 < 3 → s2 < 3 → s1 ≠ s2 → ∀ line,
        line ∈ seqOutput lo hi 3 s1 m → line ∉ seqOutput lo hi 3 s2 m) ∧
    (∀ line, (∃ s, s < 3 ∧ line ∈ seqOutput lo hi 3 s m) ↔
        line ∈ seqOutput lo hi 1 0 m) := by
  have hdisj : ∀ s1 s2, s1 < 3 → s2 < 3 → s1 ≠ s2 →
      ∀ x, x ∈ seqVisited lo hi 1 3 s1 → x ∉ seqVisited lo hi 1 3 s2 := by
    intro s1 s2 h1 h2 hne x hx1 hx2
    rw [seqVisited_mem lo hi s1 h1] at hx1
    rw [seqVisited_mem lo hi s2 h2] at hx2
    omega
  have hunion : ∀ x, (∃ s, s < 3 ∧ x ∈ seqVisited lo hi 1 3 s) ↔ lo ≤ x ∧ x ≤ hi := by
    intro x
    constructor
    · rintro ⟨s, hs, hx⟩
      rw [seqVisited_mem lo hi s hs] at hx
      exact ⟨hx.1, hx.2.1⟩
    · rintro ⟨h1, h2⟩
      refine ⟨x % 3, by omega, ?_⟩
      rw [seqVisited_mem lo hi (x % 3) (by omega)]
      exact ⟨h1, h2, rfl⟩
  refine ⟨?_, hdisj, hunion, ?_, ?_, ?_⟩
  · intro s hs x
    unfold seqVisited
    rw [show ((1 : Nat) * 3) = 3 from rfl]
    exact seqLoopIdx_mem hi 3 (by omega) _ x
  · intro s hs
    have hguard : ¬¬((0 : Int) ≤ (s : Int) ∧ (s : Int) < 3) := by
      simp only [not_not]
      constructor
      · exact Int.ofNat_nonneg s
      · exact_mod_cast hs
    simp only [runSeqMode]
    rw [if_neg hguard]
    rw [seqEmitGo_none]
    simp only [seqOutput, Bool.false_or]
    unfold seqVisited seqStart
    norm_num [Int.toNat_ofNat]
    rw [show (3 : Int).toNat = 3 from rfl]
  · intro s1 s2 h1 h2 hne line hl1 hl2
    rw [seqOutput_mem] at hl1 hl2
    obtain ⟨i, hi1, hk1, rfl⟩ := hl1
    obtain ⟨j, hj2, hk2, heq⟩ := hl2
    have hib : i ≤ 999999999999 := by
      rw [seqVisited_mem lo hi s1 h1] at hi1
      omega
    have hjb : j ≤ 999999999999 := by
      rw [seqVisited_mem lo hi s2 h2] at hj2
      omega
    have hij : j = i := seqRender_inj m j i hjb hib heq.symm
    subst hij
    exact hdisj s1 s2 h1 h2 hne j hi1 hj2
  · intro line
    constructor
    · rintro ⟨s, hs, hl⟩
      rw [seqOutput_mem] at hl
      obtain ⟨i, hv, hk, rfl⟩ := hl
      rw [seqOutput_mem]
      refine ⟨i, ?_, hk, rfl⟩
      rw [seqVisited_total_one]
      rw [seqVisited_mem lo hi s hs] at hv
      exact ⟨hv.1, hv.2.1⟩
    · intro hl
      rw [seqOutput_mem] at hl
      obtain ⟨i, hv, hk, rfl⟩ := hl
      rw [seqVisited_total_one] at hv
      refine ⟨i % 3, by omega, ?_⟩
      rw [seqOutput_mem]
      refine ⟨i, ?_, hk, rfl⟩
      rw [seqVisited_mem lo hi (i % 3) (by omega)]
      exact ⟨hv.1, hv.2, rfl⟩

/-- Witness for C3: over `[0, 5]`, the value 4 is visited by some shard of
three exactly because it lies in the range. -/
theorem seq_sharding_partition_witness :
    (∃ s, s < 3 ∧ (4 : Nat) ∈ seqVisited 0 5 1 3 s) ↔ (0 : Nat) ≤ 4 ∧ (4 : Nat) ≤ 5 :=
  (seq_sharding_partition 0 5 (by omega) (by omega) false).2.2.1 4

end Gerador
